import Mathlib

/-!
Verification of the go-tss repository: a Threshold Secret Sharing core over
GF(256) (tss.go). The development embeds the field arithmetic engine
(log/antilog tables, add/mul/div), the share generator `CreateShares` and the
recoverer `RecoverSecret`, and proves functional-correctness, error-handling
and safety properties about them.
-/

set_option maxRecDepth 10000

namespace Tss

/-- A GF(256) field element: one byte, as in the Go source (`byte`). A fresh
structure (rather than `Fin 256` itself) so that the field instance built
below from the source's table arithmetic cannot clash with the mod-256
instances of `Fin`. -/
structure GF where
  val : Fin 256
deriving DecidableEq

/-- Build a byte from a natural number (used for literals and table entries). -/
def g (n : Nat) : GF := ⟨⟨n % 256, Nat.mod_lt _ (by omega)⟩⟩

instance : Zero GF := ⟨g 0⟩

instance : One GF := ⟨g 1⟩

theorem GF.val_inj {a b : GF} (h : a.val.val = b.val.val) : a = b := by
  cases a with
  | mk x => cases b with
    | mk y => cases x; cases y; simp_all

theorem g_val {n : Nat} (h : n < 256) : (g n).val.val = n := Nat.mod_eq_of_lt h

def expOp : List Nat := [
  1, 3, 5, 15, 17, 51, 85, 255, 26, 46, 114, 150, 161, 248, 19, 53, 95, 225, 56, 72,
  216, 115, 149, 164, 247, 2, 6, 10, 30, 34, 102, 170, 229, 52, 92, 228, 55, 89, 235, 38,
  106, 190, 217, 112, 144, 171, 230, 49, 83, 245, 4, 12, 20, 60, 68, 204, 79, 209, 104, 184,
  211, 110, 178, 205, 76, 212, 103, 169, 224, 59, 77, 215, 98, 166, 241, 8, 24, 40, 120, 136,
  131, 158, 185, 208, 107, 189, 220, 127, 129, 152, 179, 206, 73, 219, 118, 154, 181, 196, 87, 249,
  16, 48, 80, 240, 11, 29, 39, 105, 187, 214, 97, 163, 254, 25, 43, 125, 135, 146, 173, 236,
  47, 113, 147, 174, 233, 32, 96, 160, 251, 22, 58, 78, 210, 109, 183, 194, 93, 231, 50, 86,
  250, 21, 63, 65, 195, 94, 226, 61, 71, 201, 64, 192, 91, 237, 44, 116, 156, 191, 218, 117,
  159, 186, 213, 100, 172, 239, 42, 126, 130, 157, 188, 223, 122, 142, 137, 128, 155, 182, 193, 88,
  232, 35, 101, 175, 234, 37, 111, 177, 200, 67, 197, 84, 252, 31, 33, 99, 165, 244, 7, 9,
  27, 45, 119, 153, 176, 203, 70, 202, 69, 207, 74, 222, 121, 139, 134, 145, 168, 227, 62, 66,
  198, 81, 243, 14, 18, 54, 90, 238, 41, 123, 141, 140, 143, 138, 133, 148, 167, 242, 13, 23,
  57, 75, 221, 124, 132, 151, 162, 253, 28, 36, 108, 180, 199, 82, 246, 1, 3, 5, 15, 17,
  51, 85, 255, 26, 46, 114, 150, 161, 248, 19, 53, 95, 225, 56, 72, 216, 115, 149, 164, 247,
  2, 6, 10, 30, 34, 102, 170, 229, 52, 92, 228, 55, 89, 235, 38, 106, 190, 217, 112, 144,
  171, 230, 49, 83, 245, 4, 12, 20, 60, 68, 204, 79, 209, 104, 184, 211, 110, 178, 205, 76,
  212, 103, 169, 224, 59, 77, 215, 98, 166, 241, 8, 24, 40, 120, 136, 131, 158, 185, 208, 107,
  189, 220, 127, 129, 152, 179, 206, 73, 219, 118, 154, 181, 196, 87, 249, 16, 48, 80, 240, 11,
  29, 39, 105, 187, 214, 97, 163, 254, 25, 43, 125, 135, 146, 173, 236, 47, 113, 147, 174, 233,
  32, 96, 160, 251, 22, 58, 78, 210, 109, 183, 194, 93, 231, 50, 86, 250, 21, 63, 65, 195,
  94, 226, 61, 71, 201, 64, 192, 91, 237, 44, 116, 156, 191, 218, 117, 159, 186, 213, 100, 172,
  239, 42, 126, 130, 157, 188, 223, 122, 142, 137, 128, 155, 182, 193, 88, 232, 35, 101, 175, 234,
  37, 111, 177, 200, 67, 197, 84, 252, 31, 33, 99, 165, 244, 7, 9, 27, 45, 119, 153, 176,
  203, 70, 202, 69, 207, 74, 222, 121, 139, 134, 145, 168, 227, 62, 66, 198, 81, 243, 14, 18,
  54, 90, 238, 41, 123, 141, 140, 143, 138, 133, 148, 167, 242, 13, 23, 57, 75, 221, 124, 132,
  151, 162, 253, 28, 36, 108, 180, 199, 82, 246]
def logOp : List Nat := [
  0, 0, 25, 1, 50, 2, 26, 198, 75, 199, 27, 104, 51, 238, 223, 3, 100, 4, 224, 14,
  52, 141, 129, 239, 76, 113, 8, 200, 248, 105, 28, 193, 125, 194, 29, 181, 249, 185, 39, 106,
  77, 228, 166, 114, 154, 201, 9, 120, 101, 47, 138, 5, 33, 15, 225, 36, 18, 240, 130, 69,
  53, 147, 218, 142, 150, 143, 219, 189, 54, 208, 206, 148, 19, 92, 210, 241, 64, 70, 131, 56,
  102, 221, 253, 48, 191, 6, 139, 98, 179, 37, 226, 152, 34, 136, 145, 16, 126, 110, 72, 195,
  163, 182, 30, 66, 58, 107, 40, 84, 250, 133, 61, 186, 43, 121, 10, 21, 155, 159, 94, 202,
  78, 212, 172, 229, 243, 115, 167, 87, 175, 88, 168, 80, 244, 234, 214, 116, 79, 174, 233, 213,
  231, 230, 173, 232, 44, 215, 117, 122, 235, 22, 11, 245, 89, 203, 95, 176, 156, 169, 81, 160,
  127, 12, 246, 111, 23, 196, 73, 236, 216, 67, 31, 45, 164, 118, 123, 183, 204, 187, 62, 90,
  251, 96, 177, 134, 59, 82, 161, 108, 170, 85, 41, 157, 151, 178, 135, 144, 97, 190, 220, 252,
  188, 149, 207, 205, 55, 63, 91, 209, 83, 57, 132, 60, 65, 162, 109, 71, 20, 42, 158, 93,
  86, 242, 211, 171, 68, 17, 146, 217, 35, 32, 46, 137, 180, 124, 184, 38, 119, 153, 227, 165,
  103, 74, 237, 222, 197, 49, 254, 24, 13, 99, 140, 128, 192, 247, 112, 7]

/-- `add` from tss.go: the field addition, bitwise exclusive-or. -/
def add (a b : GF) : GF :=
  ⟨⟨a.val.val ^^^ b.val.val, by
    have h := Nat.xor_lt_two_pow (n := 8) (lt_of_lt_of_eq a.val.isLt (by norm_num))
      (lt_of_lt_of_eq b.val.isLt (by norm_num))
    exact lt_of_lt_of_eq h (by norm_num)⟩⟩

/-- Antilog table lookup (Go: `expOp[i]`), out-of-range reads default to 0;
all in-range uses are proved within bounds below. -/
def expAt (i : Nat) : GF := g (expOp.getD i 0)

/-- Discrete-log table lookup (Go: `logOp[x]`). -/
def logv (a : GF) : Nat := logOp.getD a.val.val 0

/-- `mul` from tss.go: returns 0 if either operand is 0, else
`expOp[logOp[x]+logOp[y]]`. -/
def mul (x y : GF) : GF :=
  if x = 0 ∨ y = 0 then 0 else expAt (logv x + logv y)

/-- `div` from tss.go: returns 0 if either operand is 0, else
`expOp[0xff+logOp[x]-logOp[y]]`. -/
def div (x y : GF) : GF :=
  if x = 0 ∨ y = 0 then 0 else expAt (255 + logv x - logv y)

/-- Multiplication by the polynomial x (an auxiliary linear map on bytes,
used to establish distributivity of the table-based `mul`). -/
def xtN (n : Nat) : Nat := if n < 128 then 2 * n else (2 * n) ^^^ 283

/-- `xtN` on bytes. -/
def xtime (b : GF) : GF := g (xtN b.val.val)

theorem zero_val : (0 : GF).val.val = 0 := rfl

theorem one_val : (1 : GF).val.val = 1 := rfl

def expN : Nat := 15333734640980062507414789825641565636302735418176859231533166052922927607481323607970318237375291650882515217194599523775671079549650168212824412956805034168263184328144078085741951343666915943044745592046023278413000228697187189424819689569716235662892360434187054327446287166656307583769170723747616251967521976364091355945179739657543646262545389381065335546725209926786394861062866870065089504186201537621786494376629382468940016267031713286008930348682439294569523701648480791976914184766566133309885445311830400252782846746419172755836401457920986687414822883811297489258008820719094024410962561261493473934018146909775240912475321789063867152806431900347318866209924199623271292433861809292822859728874266177092502232241966695092723982153390306815440435705345861529962584445308679409559773331862712241435213977676565016257000996819143799044703524200450662794730726039629349269185159391030018691205180885666225121945010261464530563353438525081876071649191349015501786271031508037034114868361667482189421441894049945600792954363459439830767433481885910347307174664692855501303210499002116688146428402721424319152601077282324648632212870489342971813997692364894855091312577628172372023463356958036043198677248822225997726465

def logN : Nat := 939374623831894136699086600277250597547650664638770418422125146541797353646788332867483593573384618611044815625336497665827114626705134492515730415652478061620339993830966980270842846318821775850471098591710629241171812800746666233448222972174585295916389942636813666312872914849454985560152530477328703759683306625234997237483834721220409437442253146756845415190424543171129629468776480674528486868811725071010351012234056630775688111116293610821126543142160426617079940511630006820862697466582575257349116925728488930366609138264019883664906661504235885380294353134295748489096855100647154935187045898006656778240

/-- Base-256 digit decoding, used only to state the tables as the digit
sequences of one literal number so that table facts reduce to fast
arithmetic on that number. -/
def decode : Nat → Nat → List Nat
  | 0, _ => []
  | k + 1, x => x % 256 :: decode k (x / 256)

theorem decode_length (k x : Nat) : (decode k x).length = k := by
  induction k generalizing x with
  | zero => rfl
  | succ k ih => simp [decode, ih]

theorem decode_getD (k : Nat) : ∀ (x i : Nat), i < k → (decode k x).getD i 0 = x / 256 ^ i % 256 := by
  induction k with
  | zero => omega
  | succ k ih =>
    intro x i hi
    cases i with
    | zero => simp [decode]
    | succ i =>
      show (decode k (x / 256)).getD i 0 = x / 256 ^ (i + 1) % 256
      rw [ih (x / 256) i (by omega), Nat.div_div_eq_div_mul, pow_succ, mul_comm (256 ^ i) 256]

/-- The antilog table is the base-256 digit sequence of `expN`. -/
theorem expOp_decode : expOp = decode 510 expN := by decide

/-- The log table is the base-256 digit sequence of `logN`. -/
theorem logOp_decode : logOp = decode 256 logN := by decide

theorem expOp_getD_eq {i : Nat} (h : i < 510) : expOp.getD i 0 = expN / 256 ^ i % 256 := by
  rw [expOp_decode, decode_getD 510 expN i h]

theorem logOp_getD_eq {i : Nat} (h : i < 256) : logOp.getD i 0 = logN / 256 ^ i % 256 := by
  rw [logOp_decode, decode_getD 256 logN i h]

/-- The discrete-log table only holds values up to 254. -/
theorem logTable_le : ∀ n : Fin 256, logOp.getD n.val 0 ≤ 254 := by
  have h : ∀ n : Fin 256, logN / 256 ^ n.val % 256 ≤ 254 := by decide
  intro n
  rw [logOp_getD_eq n.isLt]
  exact h n

/-- Antilog of log is the identity on nonzero bytes. -/
theorem expTable_logTable : ∀ n : Fin 256, n.val ≠ 0 →
    expOp.getD (logOp.getD n.val 0) 0 = n.val := by
  have h : ∀ n : Fin 256, n.val ≠ 0 →
      expN / 256 ^ (logN / 256 ^ n.val % 256) % 256 = n.val := by decide
  intro n hn
  rw [logOp_getD_eq n.isLt,
    expOp_getD_eq (i := logN / 256 ^ n.val % 256) (by
      have := logTable_le n
      rw [logOp_getD_eq n.isLt] at this
      omega)]
  exact h n hn

/-- Every antilog table entry fits in a byte. -/
theorem expTable_lt : ∀ k : Fin 510, expOp.getD k.val 0 < 256 := by
  intro k
  rw [expOp_getD_eq k.isLt]
  exact Nat.mod_lt _ (by omega)

/-- Log of antilog is the identity below 255. -/
theorem logTable_expTable : ∀ k : Fin 255, logOp.getD (expOp.getD k.val 0) 0 = k.val := by
  have h : ∀ k : Fin 255, logN / 256 ^ (expN / 256 ^ k.val % 256) % 256 = k.val := by decide
  intro k
  rw [expOp_getD_eq (i := k.val) (by omega),
    logOp_getD_eq (i := expN / 256 ^ k.val % 256) (Nat.mod_lt _ (by omega))]
  exact h k

/-- Every antilog table entry is a nonzero byte. -/
theorem expTable_pos : ∀ k : Fin 510, 0 < expOp.getD k.val 0 := by
  have h : ∀ k : Fin 510, 0 < expN / 256 ^ k.val % 256 := by decide
  intro k
  rw [expOp_getD_eq k.isLt]
  exact h k

/-- The antilog table is the exponentiation sequence written twice. -/
theorem expTable_period : ∀ k : Fin 255, expOp.getD (k.val + 255) 0 = expOp.getD k.val 0 := by
  have h : ∀ k : Fin 255, expN / 256 ^ (k.val + 255) % 256 = expN / 256 ^ k.val % 256 := by
    decide
  intro k
  rw [expOp_getD_eq (i := k.val + 255) (by omega), expOp_getD_eq (i := k.val) (by omega)]
  exact h k

/-- The antilog table has exactly 510 entries. -/
theorem expOp_length : expOp.length = 510 := by
  rw [expOp_decode, decode_length]

/-- The log table has exactly 256 entries. -/
theorem logOp_length : logOp.length = 256 := by
  rw [logOp_decode, decode_length]

theorem logv_le (a : GF) : logv a ≤ 254 := logTable_le a.val

theorem expAt_val {i : Nat} (h : i < 510) : (expAt i).val.val = expOp.getD i 0 :=
  g_val (expTable_lt ⟨i, h⟩)

theorem expAt_ne_zero {i : Nat} (h : i < 510) : expAt i ≠ 0 := by
  intro hc
  have h1 : (expAt i).val.val = expOp.getD i 0 := expAt_val h
  have h2 : 0 < expOp.getD i 0 := expTable_pos ⟨i, h⟩
  rw [hc, zero_val] at h1
  omega

theorem ne_zero_val {a : GF} (h : a ≠ 0) : a.val.val ≠ 0 := by
  intro hc
  exact h (GF.val_inj (by simp [hc, zero_val]))

theorem exp_log {a : GF} (h : a ≠ 0) : expAt (logv a) = a := by
  have hlt : logv a < 510 := lt_of_le_of_lt (logv_le a) (by omega)
  apply GF.val_inj
  rw [expAt_val hlt]
  exact expTable_logTable a.val (ne_zero_val h)

theorem log_expAt {k : Nat} (h : k < 255) : logv (expAt k) = k := by
  have hlt : k < 510 := by omega
  unfold logv
  rw [expAt_val hlt]
  exact logTable_expTable ⟨k, h⟩

theorem expAt_mod {i : Nat} (h : i < 510) : expAt i = expAt (i % 255) := by
  rcases lt_or_ge i 255 with hlt | hge
  · rw [Nat.mod_eq_of_lt hlt]
  · have h2 : i % 255 = i - 255 := by omega
    rw [h2]
    unfold expAt
    have h3 : expOp.getD (i - 255 + 255) 0 = expOp.getD (i - 255) 0 :=
      expTable_period ⟨i - 255, by omega⟩
    have h4 : i - 255 + 255 = i := by omega
    rw [h4] at h3
    rw [h3]

theorem logv_expAt_mod {i : Nat} (h : i < 510) : logv (expAt i) = i % 255 := by
  rw [expAt_mod h]
  exact log_expAt (Nat.mod_lt _ (by omega))

theorem mul_nz {a b : GF} (ha : a ≠ 0) (hb : b ≠ 0) :
    mul a b = expAt ((logv a + logv b) % 255) := by
  have hia : logv a ≤ 254 := logv_le a
  have hib : logv b ≤ 254 := logv_le b
  unfold mul
  rw [if_neg (by tauto)]
  exact expAt_mod (by omega)

theorem mul_nz_ne_zero {a b : GF} (ha : a ≠ 0) (hb : b ≠ 0) : mul a b ≠ 0 := by
  rw [mul_nz ha hb]
  exact expAt_ne_zero (lt_of_lt_of_le (Nat.mod_lt _ (by omega)) (by omega))

theorem logv_mul {a b : GF} (ha : a ≠ 0) (hb : b ≠ 0) :
    logv (mul a b) = (logv a + logv b) % 255 := by
  rw [mul_nz ha hb]
  exact log_expAt (Nat.mod_lt _ (by omega))

theorem mul_zero' (a : GF) : mul a 0 = 0 := by simp [mul]

theorem zero_mul' (a : GF) : mul 0 a = 0 := by simp [mul]

theorem div_zero' (a : GF) : div a 0 = 0 := by simp [div]

theorem zero_div' (a : GF) : div 0 a = 0 := by simp [div]

theorem mul_comm' (a b : GF) : mul a b = mul b a := by
  by_cases h : a = 0 ∨ b = 0
  · unfold mul
    rw [if_pos h, if_pos (by tauto)]
  · unfold mul
    rw [if_neg h, if_neg (by tauto), Nat.add_comm]

theorem mul_assoc' (a b c : GF) : mul (mul a b) c = mul a (mul b c) := by
  by_cases ha : a = 0
  · simp [ha, zero_mul']
  by_cases hb : b = 0
  · simp [hb, zero_mul', mul_zero']
  by_cases hc : c = 0
  · simp [hc, mul_zero']
  rw [mul_nz (mul_nz_ne_zero ha hb) hc, mul_nz ha (mul_nz_ne_zero hb hc),
    logv_mul ha hb, logv_mul hb hc, Nat.mod_add_mod, Nat.add_mod_mod, Nat.add_assoc]

theorem one_ne_zero' : (1 : GF) ≠ 0 := by decide

theorem logv_one : logv 1 = 0 := by decide

theorem expAt_zero : expAt 0 = 1 := by decide

theorem one_mul' (a : GF) : mul 1 a = a := by
  by_cases ha : a = 0
  · simp [ha, mul_zero']
  rw [mul_nz one_ne_zero' ha, logv_one, Nat.zero_add,
    Nat.mod_eq_of_lt (lt_of_le_of_lt (logv_le a) (by omega))]
  exact exp_log ha

theorem mul_one' (a : GF) : mul a 1 = a := by rw [mul_comm']; exact one_mul' a

theorem div_one_nz {a : GF} (ha : a ≠ 0) : div 1 a = expAt (255 - logv a) := by
  unfold div
  rw [if_neg (by tauto), logv_one]

theorem div_one_ne_zero {a : GF} (ha : a ≠ 0) : div 1 a ≠ 0 := by
  rw [div_one_nz ha]
  exact expAt_ne_zero (by have := logv_le a; omega)

theorem mul_inv_cancel' (a : GF) (ha : a ≠ 0) : mul a (div 1 a) = 1 := by
  have hla : logv a ≤ 254 := logv_le a
  rw [mul_nz ha (div_one_ne_zero ha), div_one_nz ha,
    logv_expAt_mod (i := 255 - logv a) (by omega)]
  have harith : (logv a + (255 - logv a) % 255) % 255 = 0 := by
    by_cases h0 : logv a = 0
    · simp [h0]
    · have h1 : (255 - logv a) % 255 = 255 - logv a := Nat.mod_eq_of_lt (by omega)
      rw [h1]
      have h2 : logv a + (255 - logv a) = 255 := by omega
      rw [h2]
  rw [harith, expAt_zero]

theorem div_eq_mul_inv' (a b : GF) : div a b = mul a (div 1 b) := by
  by_cases ha : a = 0
  · simp [ha, zero_div', zero_mul']
  by_cases hb : b = 0
  · simp [hb, div_zero', mul_zero']
  have hla : logv a ≤ 254 := logv_le a
  have hlb : logv b ≤ 254 := logv_le b
  rw [mul_nz ha (div_one_ne_zero hb), div_one_nz hb,
    logv_expAt_mod (i := 255 - logv b) (by omega)]
  unfold div
  rw [if_neg (by tauto)]
  rw [expAt_mod (i := 255 + logv a - logv b) (by omega)]
  congr 1
  by_cases h0 : logv b = 0
  · simp [h0]
  · have h1 : (255 - logv b) % 255 = 255 - logv b := Nat.mod_eq_of_lt (by omega)
    rw [h1]
    congr 1
    omega
theorem add_val (a b : GF) : (add a b).val.val = a.val.val ^^^ b.val.val := rfl

theorem add_comm' (a b : GF) : add a b = add b a :=
  GF.val_inj (by rw [add_val, add_val, Nat.xor_comm])

theorem add_assoc' (a b c : GF) : add (add a b) c = add a (add b c) :=
  GF.val_inj (by simp only [add_val]; exact Nat.xor_assoc _ _ _)

theorem add_zero' (a : GF) : add a 0 = a :=
  GF.val_inj (by rw [add_val, zero_val, Nat.xor_zero])

theorem zero_add' (a : GF) : add 0 a = a :=
  GF.val_inj (by rw [add_val, zero_val, Nat.zero_xor])

theorem add_self' (a : GF) : add a a = 0 :=
  GF.val_inj (by rw [add_val, Nat.xor_self, zero_val])

/-- `xtN` keeps byte values within a byte. -/
theorem xtN_lt : ∀ n : Fin 256, xtN n.val < 256 := by decide

theorem two_mul_xor (x y : Nat) : 2 * (x ^^^ y) = 2 * x ^^^ 2 * y := by
  have h2 : ∀ z : Nat, 2 * z = z <<< 1 := by
    intro z
    rw [Nat.shiftLeft_eq]
    ring
  apply Nat.eq_of_testBit_eq
  intro i
  rw [h2, h2, h2, Nat.testBit_xor, Nat.testBit_shiftLeft, Nat.testBit_shiftLeft,
    Nat.testBit_shiftLeft, Nat.testBit_xor]
  by_cases h : 1 ≤ i <;> simp [h]

theorem high_bit {n : Nat} (h : n < 256) : n.testBit 7 = decide (128 ≤ n) := by
  rw [Nat.testBit_to_div_mod]
  have h128 : (2:Nat) ^ 7 = 128 := by norm_num
  rw [h128]
  rcases lt_or_ge n 128 with h1 | h1
  · have hd : n / 128 = 0 := by omega
    simp [hd]
    omega
  · have hd : n / 128 = 1 := by omega
    simp [hd, h1]

theorem xor_high_iff {a b : Nat} (ha : a < 256) (hb : b < 256) :
    (a ^^^ b < 128) ↔ ((a < 128) ↔ (b < 128)) := by
  have hab : a ^^^ b < 256 := Nat.xor_lt_two_pow (n := 8) (by omega) (by omega)
  have h1 := high_bit hab
  rw [Nat.testBit_xor, high_bit ha, high_bit hb] at h1
  by_cases h2 : 128 ≤ a <;> by_cases h3 : 128 ≤ b <;>
    simp [h2, h3] at h1 <;> constructor <;> intro h4 <;> omega

theorem xor_shuffle (x y u v : Nat) : (x ^^^ u) ^^^ (y ^^^ v) = (x ^^^ y) ^^^ (u ^^^ v) := by
  have hl : ∀ p q r : Nat, p ^^^ (q ^^^ r) = q ^^^ (p ^^^ r) := by
    intro p q r
    rw [← Nat.xor_assoc, Nat.xor_comm p q, Nat.xor_assoc]
  rw [Nat.xor_assoc, hl u y v, ← Nat.xor_assoc]

theorem xtN_eq (n : Nat) : xtN n = 2 * n ^^^ (if n < 128 then 0 else 283) := by
  unfold xtN
  by_cases h : n < 128 <;> simp [h]

/-- `xtN` is additive for the xor addition. -/
theorem xtN_add (a : Nat) (ha : a < 256) (b : Nat) (hb : b < 256) :
    xtN (a ^^^ b) = xtN a ^^^ xtN b := by
  rw [xtN_eq, xtN_eq, xtN_eq, two_mul_xor, xor_shuffle]
  congr 1
  have hiff := xor_high_iff ha hb
  by_cases h1 : a < 128 <;> by_cases h2 : b < 128
  · have h3 : a ^^^ b < 128 := hiff.mpr (by tauto)
    simp [h1, h2, h3]
  · have h3 : ¬ (a ^^^ b < 128) := by
      intro hc
      have := hiff.mp hc
      tauto
    simp [h1, h2, h3]
  · have h3 : ¬ (a ^^^ b < 128) := by
      intro hc
      have := hiff.mp hc
      tauto
    simp [h1, h2, h3]
  · have h3 : a ^^^ b < 128 := hiff.mpr (by tauto)
    simp [h1, h2, h3]

theorem xtime_val (b : GF) : (xtime b).val.val = xtN b.val.val :=
  g_val (xtN_lt b.val)

theorem xtime_add (a b : GF) : xtime (add a b) = add (xtime a) (xtime b) := by
  apply GF.val_inj
  rw [xtime_val, add_val, add_val, xtime_val, xtime_val]
  exact xtN_add a.val.val a.val.isLt b.val.val b.val.isLt

/-- Multiplication by the generator 3, as a map on bytes. -/
def mulGen (b : GF) : GF := add (xtime b) b

/-- The table product of 3 with any byte agrees with the linear map `mulGen`. -/
theorem mul_three : ∀ n : Fin 256, mul (g 3) (GF.mk n) = mulGen (GF.mk n) := by decide

theorem mulGen_add (a b : GF) : mulGen (add a b) = add (mulGen a) (mulGen b) := by
  unfold mulGen
  rw [xtime_add]
  apply GF.val_inj
  simp only [add_val, xtime_val]
  exact (xor_shuffle (xtN a.val.val) (xtN b.val.val) a.val.val b.val.val).symm

theorem mulGen_zero : mulGen 0 = 0 := by decide

theorem mulGen_iterate_zero (k : Nat) : mulGen^[k] 0 = 0 := by
  induction k with
  | zero => rfl
  | succ k ih => rw [Function.iterate_succ_apply, mulGen_zero, ih]

theorem mulGen_iterate_add (k : Nat) (a b : GF) :
    mulGen^[k] (add a b) = add (mulGen^[k] a) (mulGen^[k] b) := by
  induction k generalizing a b with
  | zero => rfl
  | succ k ih => rw [Function.iterate_succ_apply, Function.iterate_succ_apply,
      Function.iterate_succ_apply, mulGen_add, ih]

theorem g3_ne_zero : g 3 ≠ 0 := by decide

theorem logv_g3 : logv (g 3) = 1 := by decide

theorem mulGen_expAt {m : Nat} (h : m < 255) : mulGen (expAt m) = expAt ((1 + m) % 255) := by
  rw [← mul_three (expAt m).val]
  have hx : GF.mk (expAt m).val = expAt m := rfl
  rw [hx, mul_nz g3_ne_zero (expAt_ne_zero (by omega)), logv_g3, log_expAt h]

theorem mulGen_iterate_expAt (k : Nat) {m : Nat} (h : m < 255) :
    mulGen^[k] (expAt m) = expAt ((k + m) % 255) := by
  induction k generalizing m with
  | zero => simp [Nat.mod_eq_of_lt h]
  | succ k ih =>
    rw [Function.iterate_succ_apply, mulGen_expAt h, ih (Nat.mod_lt _ (by omega)),
      Nat.add_mod_mod]
    congr 1
    omega

theorem mul_eq_iterate {a : GF} (ha : a ≠ 0) (b : GF) : mul a b = mulGen^[logv a] b := by
  by_cases hb : b = 0
  · rw [hb, mul_zero', mulGen_iterate_zero]
  · have hlb : logv b < 255 := lt_of_le_of_lt (logv_le b) (by omega)
    conv_rhs => rw [← exp_log hb]
    rw [mulGen_iterate_expAt _ hlb, mul_nz ha hb]

theorem left_distrib' (a b c : GF) : mul a (add b c) = add (mul a b) (mul a c) := by
  by_cases ha : a = 0
  · rw [ha, zero_mul', zero_mul', zero_mul', add_zero']
  · rw [mul_eq_iterate ha, mul_eq_iterate ha, mul_eq_iterate ha, mulGen_iterate_add]

theorem right_distrib' (a b c : GF) : mul (add a b) c = add (mul a c) (mul b c) := by
  rw [mul_comm', left_distrib', mul_comm' c a, mul_comm' c b]
instance : Add GF := ⟨add⟩

instance : Mul GF := ⟨mul⟩

instance : Neg GF := ⟨fun a => a⟩

instance : Inv GF := ⟨fun a => div 1 a⟩

instance : Div GF := ⟨div⟩

/-- The table arithmetic of tss.go gives GF(256) the structure of a
commutative ring (the field structure follows below). -/
instance : CommRing GF where
  add := add
  add_assoc := add_assoc'
  zero_add := zero_add'
  add_zero := add_zero'
  add_comm := add_comm'
  mul := mul
  mul_assoc := mul_assoc'
  one_mul := one_mul'
  mul_one := mul_one'
  left_distrib := left_distrib'
  right_distrib := right_distrib'
  zero_mul := zero_mul'
  mul_zero := mul_zero'
  mul_comm := mul_comm'
  neg := fun a => a
  neg_add_cancel := add_self'
  nsmul := nsmulRec
  zsmul := zsmulRec

/-- The table arithmetic of tss.go makes the byte type a field: `div 1 a` is a
two-sided inverse of any nonzero `a`, and the source `div` agrees with
multiplication by the inverse. -/
instance : Field GF where
  inv := fun a => div 1 a
  div := div
  div_eq_mul_inv := div_eq_mul_inv'
  zpow := zpowRec
  exists_pair_ne := ⟨0, 1, by decide⟩
  mul_inv_cancel := mul_inv_cancel'
  inv_zero := div_zero' 1
  nnqsmul := _
  qsmul := _

theorem add_def (a b : GF) : a + b = add a b := rfl

theorem mul_def (a b : GF) : a * b = mul a b := rfl

theorem neg_def (a : GF) : -a = a := rfl

theorem inv_def (a : GF) : a⁻¹ = div 1 a := rfl

theorem div_def (a b : GF) : a / b = div a b := rfl

theorem gf_div_eq (a b : GF) : a / b = a * b⁻¹ := div_eq_mul_inv a b

theorem gf_char_two (a : GF) : a + a = 0 := add_self' a

theorem gf_neg_eq (a : GF) : -a = a := rfl
/-- `MinSecretBytes` from tss.go. -/
def MinSecretBytes : Nat := 32

/-- `MaxSecretBytes` from tss.go. -/
def MaxSecretBytes : Nat := 65534

/-- `MaxShareBytes` from tss.go. -/
def MaxShareBytes : Nat := MaxSecretBytes + 1

/-- `MinShareBytes` from tss.go. -/
def MinShareBytes : Nat := MinSecretBytes + 1

/-- `MinShares` from tss.go. -/
def MinShares : Nat := 2

/-- `MaxShares` from tss.go. -/
def MaxShares : Nat := 255

/-- The error values of tss.go. -/
inductive Err where
  | ErrTooFewShares
  | ErrSecretRequired
  | ErrSecretTooShort
  | ErrSecretTooLarge
  | ErrTooManyShares
  | ErrInvalidThreshold
  | ErrInvalidShare
deriving DecidableEq

/-- Outcome of a Go function returning `(value, error)`: a normal return with
a value, a normal return with an error, or a runtime panic (index out of
range / make with negative length). -/
inductive GoResult (α : Type) where
  | ok (a : α)
  | err (e : Err)
  | panicked
deriving DecidableEq

/-- `poly` from tss.go: the ith Lagrange basis function, evaluated at zero. -/
def poly (i : Nat) (u : List GF) : GF :=
  (List.range u.length).foldl
    (fun r j => if j ≠ i then mul r (div (u.getD j 0) (add (u.getD j 0) (u.getD i 0))) else r) 1

/-- `interpolate` from tss.go: Lagrange interpolation of points `(u i, v i)`
at zero. -/
def interpolate (u v : List GF) : GF :=
  (List.range u.length).foldl (fun r i => add r (mul (poly i u) (v.getD i 0))) 0

/-- `eval` from tss.go: Horner-style evaluation of the polynomial with
coefficient vector `a` at the point `x`. -/
def eval (x : GF) (a : List GF) : GF :=
  (a.foldl (fun st c => (add st.1 (mul c st.2), mul st.2 x)) ((0 : GF), (1 : GF))).1

/-- The coefficient buffer of `CreateShares` for secret position `i`:
`threshold` bytes drawn from the random source, whose slot 0 is then
overwritten with the secret byte (`a[0] = secret[i]` in the Go source).
`rnd i k` models the byte that `rand.Read` puts into slot `k` for position
`i`. For `t = 0` the buffer is empty, as in the source. -/
def coeffs (secret : List GF) (rnd : Nat → Nat → GF) (t : Nat) (i : Nat) : List GF :=
  (List.ofFn (fun k : Fin t => rnd i k.val)).set 0 (secret.getD i 0)

/-- The index byte of the jth share (`shares[i][0] = byte(i+1)` in tss.go). -/
def idxByte (j : Nat) : GF := g (j + 1)

/-- The jth share built by `CreateShares`: the index byte followed by one
polynomial evaluation per secret byte. -/
def mkShare (secret : List GF) (rnd : Nat → Nat → GF) (t : Nat) (j : Nat) : List GF :=
  idxByte j :: (List.range secret.length).map (fun i => eval (idxByte j) (coeffs secret rnd t i))

/-- `CreateShares` from tss.go. Validation checks mirror the source in order.
After validation the source runs `a := make([]byte, threshold)`, which panics
for a negative `threshold`, and then executes `a[0] = secret[i]` inside the
secret loop, which panics for `threshold = 0` (empty buffer, and the loop
body runs since the secret is nonempty after validation); both conditions
are modelled as `panicked`. The random source never fails in this model. -/
def CreateShares (secret : List GF) (sharesCount threshold : Int)
    (rnd : Nat → Nat → GF) : GoResult (List (List GF)) :=
  if secret.length = 0 then .err .ErrSecretRequired
  else if secret.length < MinSecretBytes then .err .ErrSecretTooShort
  else if secret.length > MaxSecretBytes then .err .ErrSecretTooLarge
  else if sharesCount < (MinShares : Int) then .err .ErrTooFewShares
  else if sharesCount > (MaxShares : Int) then .err .ErrTooManyShares
  else if threshold > sharesCount then .err .ErrInvalidThreshold
  else if threshold < 0 then .panicked
  else if threshold = 0 then .panicked
  else .ok ((List.range sharesCount.toNat).map (fun j => mkShare secret rnd threshold.toNat j))

/-- The recovery double loop of tss.go, with every share access through a
bounds-checked lookup: a `none` models a Go index-out-of-range panic. `u` is
the vector of index bytes, and for each payload offset `j` the inner loop
collects `v` and interpolates. -/
def recoverCore (shares : List (List GF)) (shareSize : Nat) : Option (List GF) :=
  (shares.mapM (fun s => s[0]?)).bind (fun u =>
    (List.range (shareSize - 1)).mapM (fun j =>
      (shares.mapM (fun s => s[j + 1]?)).map (fun v => interpolate u v)))

/-- The part of `RecoverSecret` from the `shareSize := len(shares[0])`
assignment on: the share-size and equal-length checks, then the recovery
loops. -/
def recoverChecked (shares : List (List GF)) (shareSize : Nat) : GoResult (List GF) :=
  if shareSize < MinShareBytes then .err .ErrInvalidShare
  else if shareSize > MaxShareBytes then .err .ErrInvalidShare
  else if (shares.drop 1).any (fun s => s.length != shareSize) then .err .ErrInvalidShare
  else match recoverCore shares shareSize with
    | some sec => .ok sec
    | none => .panicked

/-- `RecoverSecret` from tss.go. Validation checks mirror the source in
order; the loops are `recoverCore`. -/
def RecoverSecret (shares : List (List GF)) : GoResult (List GF) :=
  if shares.length < MinShares then .err .ErrTooFewShares
  else if shares.length > MaxShares then .err .ErrTooManyShares
  else recoverChecked shares (shares.getD 0 []).length
theorem mapM_eq_some {α β : Type} (l : List α) (f : α → Option β) (h : α → β)
    (hf : ∀ a ∈ l, f a = some (h a)) : l.mapM f = some (l.map h) := by
  induction l with
  | nil => rfl
  | cons a l ih =>
    rw [List.mapM_cons, hf a (by simp), ih (fun x hx => hf x (by simp [hx]))]
    rfl

theorem mapM_index {k : Nat} (shares : List (List GF)) (hk : ∀ s ∈ shares, k < s.length) :
    shares.mapM (fun s => s[k]?) = some (shares.map (fun s => s.getD k 0)) :=
  mapM_eq_some shares _ _ (fun s hs => by
    have hlt := hk s hs
    rw [List.getElem?_eq_getElem hlt, List.getD_eq_getElem (l := s) (d := 0) hlt])

theorem recoverCore_eq (shares : List (List GF)) (L : Nat) (hL : 1 ≤ L)
    (hall : ∀ s ∈ shares, s.length = L) :
    recoverCore shares L = some ((List.range (L - 1)).map (fun j =>
      interpolate (shares.map (fun s => s.getD 0 0))
        (shares.map (fun s => s.getD (j + 1) 0)))) := by
  unfold recoverCore
  rw [mapM_index shares (fun s hs => by rw [hall s hs]; omega)]
  rw [Option.some_bind]
  apply mapM_eq_some
  intro j hj
  have hjlt : j < L - 1 := List.mem_range.mp hj
  rw [mapM_index shares (fun s hs => by rw [hall s hs]; omega)]
  rfl

theorem getD_zero_mem {l : List (List GF)} (h : 0 < l.length) : l.getD 0 [] ∈ l := by
  rw [List.getD_eq_getElem (l := l) (d := []) h]
  exact List.getElem_mem h

/-- Shape-valid share sets are recovered without error, and the result is the
per-offset interpolation of the index bytes against the payload bytes. -/
theorem RecoverSecret_ok (shares : List (List GF)) (L : Nat)
    (h2 : 2 ≤ shares.length) (h255 : shares.length ≤ 255)
    (hall : ∀ s ∈ shares, s.length = L) (hmin : 33 ≤ L) (hmax : L ≤ 65535) :
    RecoverSecret shares = .ok ((List.range (L - 1)).map (fun j =>
      interpolate (shares.map (fun s => s.getD 0 0))
        (shares.map (fun s => s.getD (j + 1) 0)))) := by
  unfold RecoverSecret
  have hsz : (shares.getD 0 []).length = L := hall _ (getD_zero_mem (by omega))
  rw [if_neg (by unfold MinShares; omega), if_neg (by unfold MaxShares; omega), hsz]
  unfold recoverChecked
  rw [if_neg (by unfold MinShareBytes MinSecretBytes; omega),
    if_neg (by unfold MaxShareBytes MaxSecretBytes; omega)]
  have hany : ((shares.drop 1).any (fun s => s.length != L)) = false := by
    rw [List.any_eq_false]
    intro s hs
    rw [hall s (List.mem_of_mem_drop hs)]
    simp
  rw [if_neg (by rw [hany]; simp)]
  rw [recoverCore_eq shares L (by omega) hall]

/-- Inversion of a successful `CreateShares` call: the bounds that validation
enforced, and the exact shape of the produced share set. -/
theorem CreateShares_ok_inv {secret : List GF} {n t : Int} {rnd : Nat → Nat → GF}
    {shares : List (List GF)} (h : CreateShares secret n t rnd = .ok shares) :
    32 ≤ secret.length ∧ secret.length ≤ 65534 ∧ 2 ≤ n ∧ n ≤ 255 ∧ 1 ≤ t ∧ t ≤ n ∧
      shares = (List.range n.toNat).map (mkShare secret rnd t.toNat) := by
  unfold CreateShares at h
  split_ifs at h with h1 h2 h3 h4 h5 h6 h7 h8
  unfold MinSecretBytes at h2
  unfold MaxSecretBytes at h3
  unfold MinShares at h4
  unfold MaxShares at h5
  refine ⟨by omega, by omega, ?_, ?_, by omega, by omega, ?_⟩
  · push_cast at h4
    omega
  · push_cast at h5
    omega
  · rw [GoResult.ok.injEq] at h
    exact h.symm

/-- The validated branch of `CreateShares`. -/
theorem CreateShares_ok (secret : List GF) (n t : Int) (rnd : Nat → Nat → GF)
    (hs1 : 32 ≤ secret.length) (hs2 : secret.length ≤ 65534)
    (hn1 : 2 ≤ n) (hn2 : n ≤ 255) (ht1 : 1 ≤ t) (ht2 : t ≤ n) :
    CreateShares secret n t rnd =
      .ok ((List.range n.toNat).map (mkShare secret rnd t.toNat)) := by
  unfold CreateShares
  rw [if_neg (by omega), if_neg (by unfold MinSecretBytes; omega),
    if_neg (by unfold MaxSecretBytes; omega), if_neg (by unfold MinShares; push_cast; omega),
    if_neg (by unfold MaxShares; push_cast; omega), if_neg (by omega),
    if_neg (by omega), if_neg (by omega)]
/-- The polynomial over GF(256) whose coefficient vector is the list `a`
(the generation-time polynomial of tss.go, `a[0] + a[1] x + ...`). -/
noncomputable def listPoly : List GF → Polynomial GF
  | [] => 0
  | c :: cs => Polynomial.C c + Polynomial.X * listPoly cs

theorem listPoly_coeff (a : List GF) (k : Nat) : (listPoly a).coeff k = a.getD k 0 := by
  induction a generalizing k with
  | nil => simp [listPoly]
  | cons c cs ih =>
    cases k with
    | zero => simp [listPoly, Polynomial.coeff_add, Polynomial.mul_coeff_zero]
    | succ k => simp [listPoly, Polynomial.coeff_add, Polynomial.coeff_X_mul, ih]

theorem listPoly_eval_zero (a : List GF) : (listPoly a).eval 0 = a.getD 0 0 := by
  have h := listPoly_coeff a 0
  rwa [Polynomial.coeff_zero_eq_eval_zero] at h

theorem listPoly_degree_lt (a : List GF) :
    (listPoly a).degree < ((a.length : Nat) : WithBot Nat) := by
  rw [Polynomial.degree_lt_iff_coeff_zero]
  intro m hm
  rw [listPoly_coeff]
  have hlen : a.length ≤ m := by exact_mod_cast hm
  exact List.getD_eq_default _ _ hlen

theorem eval_foldl (x : GF) (a : List GF) (r xi : GF) :
    (a.foldl (fun st c => (add st.1 (mul c st.2), mul st.2 x)) (r, xi)).1 =
      r + xi * (listPoly a).eval x := by
  induction a generalizing r xi with
  | nil => simp [listPoly]
  | cons c cs ih =>
    rw [List.foldl_cons, ih]
    show add r (mul c xi) + mul xi x * (listPoly cs).eval x =
      r + xi * (listPoly (c :: cs)).eval x
    rw [← add_def, ← mul_def, ← mul_def]
    show r + c * xi + xi * x * (listPoly cs).eval x = r + xi * (listPoly (c :: cs)).eval x
    have hlp : listPoly (c :: cs) = Polynomial.C c + Polynomial.X * listPoly cs := rfl
    rw [hlp, Polynomial.eval_add, Polynomial.eval_C, Polynomial.eval_mul, Polynomial.eval_X]
    ring

/-- The Horner loop `eval` of tss.go computes the value of the coefficient
polynomial. -/
theorem eval_eq_listPoly (x : GF) (a : List GF) : eval x a = (listPoly a).eval x := by
  unfold eval
  rw [eval_foldl]
  ring

theorem foldl_prod_filter {α : Type} (q : α → Prop) [DecidablePred q] (f : α → GF)
    (l : List α) (r : GF) :
    l.foldl (fun acc j => if q j then acc * f j else acc) r =
      r * ((l.filter (fun j => decide (q j))).map f).prod := by
  induction l generalizing r with
  | nil => simp
  | cons a l ih =>
    by_cases hq : q a
    · have hpa : decide (q a) = true := decide_eq_true hq
      rw [List.foldl_cons, if_pos hq, ih, List.filter_cons, if_pos hpa,
        List.map_cons, List.prod_cons, mul_assoc]
    · have hpa : decide (q a) = false := decide_eq_false hq
      rw [List.foldl_cons, if_neg hq, ih, List.filter_cons, if_neg (by simp [hpa])]

theorem foldl_sum {α : Type} (f : α → GF) (l : List α) (r : GF) :
    l.foldl (fun acc j => acc + f j) r = r + (l.map f).sum := by
  induction l generalizing r with
  | nil => simp
  | cons a l ih =>
    rw [List.foldl_cons, ih, List.map_cons, List.sum_cons]
    ring

theorem prod_range_filter (m : Nat) (q : Nat → Prop) [DecidablePred q] (f : Nat → GF) :
    ∏ j ∈ (Finset.range m).filter q, f j =
      (((List.range m).filter (fun j => decide (q j))).map f).prod := rfl

theorem sum_range_list (m : Nat) (f : Nat → GF) :
    ∑ j ∈ Finset.range m, f j = ((List.range m).map f).sum := rfl

/-- The source `poly i u` is the Lagrange basis product over indices `≠ i`. -/
theorem poly_eq_prod (i : Nat) (u : List GF) :
    poly i u = ∏ j ∈ (Finset.range u.length).erase i,
      u.getD j 0 / (u.getD j 0 + u.getD i 0) := by
  unfold poly
  have hbody : (fun (r : GF) (j : Nat) =>
      if j ≠ i then mul r (div (u.getD j 0) (add (u.getD j 0) (u.getD i 0))) else r) =
      (fun (r : GF) (j : Nat) =>
      if j ≠ i then r * (u.getD j 0 / (u.getD j 0 + u.getD i 0)) else r) := rfl
  rw [hbody, foldl_prod_filter (fun j => j ≠ i) (fun j => u.getD j 0 / (u.getD j 0 + u.getD i 0)),
    one_mul, ← Finset.filter_ne', prod_range_filter]

/-- The source `interpolate u v` is the Lagrange sum of basis values times
ordinates. -/
theorem interpolate_eq_sum (u v : List GF) :
    interpolate u v = ∑ i ∈ Finset.range u.length, poly i u * v.getD i 0 := by
  unfold interpolate
  have hbody : (fun (r : GF) (i : Nat) => add r (mul (poly i u) (v.getD i 0))) =
      (fun (r : GF) (i : Nat) => r + poly i u * v.getD i 0) := rfl
  rw [hbody, foldl_sum (fun i => poly i u * v.getD i 0), zero_add, sum_range_list]
theorem basisDivisor_eval_zero (x y : GF) :
    (Lagrange.basisDivisor x y).eval 0 = y / (y + x) := by
  unfold Lagrange.basisDivisor
  rw [Polynomial.eval_mul, Polynomial.eval_C, Polynomial.eval_sub, Polynomial.eval_X,
    Polynomial.eval_C]
  rw [zero_sub, gf_neg_eq, sub_eq_add_neg, gf_neg_eq, gf_div_eq]
  rw [mul_comm, add_comm]

theorem basis_eval_zero {m : Nat} (u : List GF) (hm : u.length = m) (i : Fin m) :
    (Lagrange.basis Finset.univ (fun k : Fin m => u.getD k.val 0) i).eval 0 = poly i.val u := by
  unfold Lagrange.basis
  rw [Polynomial.eval_prod, poly_eq_prod, hm]
  refine Finset.prod_bij' (fun (a : Fin m) (_ : a ∈ Finset.univ.erase i) => a.val)
    (fun (a : Nat) (ha : a ∈ (Finset.range m).erase i.val) =>
      (⟨a, Finset.mem_range.mp (Finset.mem_of_mem_erase ha)⟩ : Fin m)) ?_ ?_ ?_ ?_ ?_
  · intro a ha
    rw [Finset.mem_erase] at ha ⊢
    exact ⟨fun hc => ha.1 (Fin.ext hc), Finset.mem_range.mpr a.isLt⟩
  · intro a ha
    rw [Finset.mem_erase] at ha ⊢
    exact ⟨fun hc => ha.1 (congrArg Fin.val hc), Finset.mem_univ _⟩
  · intro a ha
    rfl
  · intro a ha
    rfl
  · intro a ha
    rw [basisDivisor_eval_zero]

/-- Lagrange interpolation at zero over distinct nodes, with the source
functions `poly`/`interpolate`: the interpolation sum recovers `P.eval 0`
for any polynomial of degree below the number of nodes. -/
theorem interpolate_eval_poly (u : List GF) (hu : u.Nodup) (P : Polynomial GF)
    (hdeg : P.degree < ((u.length : Nat) : WithBot Nat)) :
    interpolate u (u.map (fun y => P.eval y)) = P.eval 0 := by
  set m := u.length with hm
  have hv : ∀ j : Fin m, u.get j = u.getD j.val 0 := by
    intro j
    rw [List.getD_eq_getElem (l := u) (d := 0) j.isLt]
    rfl
  have hinj : Function.Injective (fun k : Fin m => u.getD k.val 0) := by
    intro a b hab
    simp only [← hv] at hab
    exact List.nodup_iff_injective_get.mp hu hab
  have hcard : (Finset.univ : Finset (Fin m)).card = m := by simp
  have hP : P = Lagrange.interpolate Finset.univ (fun k : Fin m => u.getD k.val 0)
      (fun i => P.eval (u.getD i.val 0)) := by
    refine Lagrange.eq_interpolate hinj.injOn ?_
    rw [hcard]
    exact hdeg
  have h0 := congrArg (Polynomial.eval 0) hP
  rw [Lagrange.interpolate_apply, Polynomial.eval_finset_sum] at h0
  simp only [Polynomial.eval_mul, Polynomial.eval_C] at h0
  rw [interpolate_eq_sum]
  have hsum : ∑ i ∈ Finset.range u.length, poly i u * (u.map (fun y => P.eval y)).getD i 0 =
      ∑ i ∈ Finset.range m, poly i u * P.eval (u.getD i 0) := by
    refine Finset.sum_congr rfl ?_
    intro k hk
    have hklt : k < m := Finset.mem_range.mp hk
    have hk2 : k < (u.map (fun y => P.eval y)).length := by
      rw [List.length_map]
      exact hklt
    rw [List.getD_eq_getElem (l := u.map (fun y => Polynomial.eval y P)) (d := 0) hk2,
      List.getD_eq_getElem (l := u) (d := 0) hklt]
    simp
  rw [hsum, h0]
  have hterm : ∀ i : Fin m, P.eval (u.getD i.val 0) *
      (Lagrange.basis Finset.univ (fun k : Fin m => u.getD k.val 0) i).eval 0 =
      poly i.val u * P.eval (u.getD i.val 0) := by
    intro i
    rw [basis_eval_zero u hm.symm i, mul_comm]
  rw [Finset.sum_congr rfl (fun i _ => hterm i)]
  exact (Fin.sum_univ_eq_sum_range (fun k => poly k u * P.eval (u.getD k 0)) m).symm
/-- Recovery from distinct nodes of evaluations of a coefficient list of
length at most the number of nodes returns the constant coefficient. -/
theorem interpolate_eval_coeffs (a u : List GF) (hu : u.Nodup) (hlen : a.length ≤ u.length) :
    interpolate u (u.map (fun x => eval x a)) = a.getD 0 0 := by
  have hfun : (fun x => eval x a) = (fun x => (listPoly a).eval x) :=
    funext (fun x => eval_eq_listPoly x a)
  rw [hfun, interpolate_eval_poly u hu (listPoly a) ?_, listPoly_eval_zero]
  refine lt_of_lt_of_le (listPoly_degree_lt a) ?_
  rw [Nat.cast_withBot, Nat.cast_withBot]
  exact WithBot.coe_le_coe.mpr hlen

instance : Inhabited GF := ⟨0⟩

theorem getD_map_range {β : Type} [Inhabited β] (n p : Nat) (h : p < n) (f : Nat → β) :
    ((List.range n).map f).getD p default = f p := by
  have hl : p < ((List.range n).map f).length := by
    rw [List.length_map, List.length_range]
    exact h
  rw [List.getD_eq_getElem (l := (List.range n).map f) (d := default) hl]
  simp

theorem map_getD_range_self {β : Type} [Inhabited β] (l : List β) :
    (List.range l.length).map (fun i => l.getD i default) = l := by
  apply List.ext_getElem
  · rw [List.length_map, List.length_range]
  · intro i h1 h2
    simp [List.getD_eq_getElem (l := l) (d := default) h2, List.getElem?_eq_getElem h2]

theorem mkShare_length (secret : List GF) (rnd : Nat → Nat → GF) (t j : Nat) :
    (mkShare secret rnd t j).length = secret.length + 1 := by
  simp [mkShare]

theorem mkShare_getD_zero (secret : List GF) (rnd : Nat → Nat → GF) (t j : Nat) :
    (mkShare secret rnd t j).getD 0 0 = idxByte j := rfl

theorem mkShare_getD_succ (secret : List GF) (rnd : Nat → Nat → GF) (t j i : Nat)
    (h : i < secret.length) :
    (mkShare secret rnd t j).getD (i + 1) 0 = eval (idxByte j) (coeffs secret rnd t i) := by
  show ((List.range secret.length).map
    (fun i => eval (idxByte j) (coeffs secret rnd t i))).getD i 0 =
    eval (idxByte j) (coeffs secret rnd t i)
  exact getD_map_range secret.length i h (fun i => eval (idxByte j) (coeffs secret rnd t i))

theorem coeffs_length (secret : List GF) (rnd : Nat → Nat → GF) (t i : Nat) :
    (coeffs secret rnd t i).length = t := by
  simp [coeffs]

theorem coeffs_getD_zero (secret : List GF) (rnd : Nat → Nat → GF) {t : Nat} (i : Nat)
    (ht : 1 ≤ t) : (coeffs secret rnd t i).getD 0 0 = secret.getD i 0 := by
  unfold coeffs
  rcases t with _ | t'
  · omega
  · rw [List.ofFn_succ, List.set_cons_zero]
    rfl

theorem idxByte_inj {p q : Nat} (hp : p < 255) (hq : q < 255) (h : idxByte p = idxByte q) :
    p = q := by
  have hv := congrArg (fun x : GF => x.val.val) h
  simp only [idxByte] at hv
  rw [g_val (by omega), g_val (by omega)] at hv
  omega

theorem nodup_length_le (picks : List Nat) (n : Nat) (hnd : picks.Nodup)
    (hpb : ∀ p ∈ picks, p < n) : picks.length ≤ n := by
  have hsub : picks.toFinset ⊆ Finset.range n := by
    intro p hp
    exact Finset.mem_range.mpr (hpb p (List.mem_toFinset.mp hp))
  have hcard := Finset.card_le_card hsub
  rwa [List.toFinset_card_of_nodup hnd, Finset.card_range] at hcard
/-- C1: for every secret, sharesCount and threshold on which `CreateShares`
returns a share set without error, and for every subset of that share set of
size at least `max threshold 2` (chosen by a duplicate-free list of
positions), `RecoverSecret` applied to the subset returns exactly the
original secret, byte for byte. -/
theorem createShares_recoverSecret_roundtrip
    (secret : List GF) (n t : Int) (rnd : Nat → Nat → GF) (shares : List (List GF))
    (hcs : CreateShares secret n t rnd = .ok shares)
    (picks : List Nat) (hnd : picks.Nodup) (hpb : ∀ p ∈ picks, p < shares.length)
    (hm : max t 2 ≤ (picks.length : Int)) :
    RecoverSecret (picks.map (fun k => shares.getD k [])) = .ok secret := by
  obtain ⟨hs1, hs2, hn1, hn2, ht1, ht2, hsh⟩ := CreateShares_ok_inv hcs
  subst hsh
  have hpb' : ∀ p ∈ picks, p < n.toNat := by
    intro p hp
    have := hpb p hp
    rwa [List.length_map, List.length_range] at this
  have hT1 : 1 ≤ t.toNat := by omega
  have hTm : t.toNat ≤ picks.length := by
    have h1 : t ≤ (picks.length : Int) := le_trans (le_max_left t 2) hm
    omega
  have h2i : 2 ≤ picks.length := by
    have h1 : (2 : Int) ≤ (picks.length : Int) := le_trans (le_max_right t 2) hm
    exact_mod_cast h1
  have hsub : picks.map (fun k => ((List.range n.toNat).map
      (mkShare secret rnd t.toNat)).getD k []) =
      picks.map (fun k => mkShare secret rnd t.toNat k) := by
    apply List.map_congr_left
    intro p hp
    exact getD_map_range n.toNat p (hpb' p hp) (mkShare secret rnd t.toNat)
  rw [hsub]
  have hlenp : ∀ s ∈ picks.map (fun k => mkShare secret rnd t.toNat k),
      s.length = secret.length + 1 := by
    intro s hs
    obtain ⟨p, hp, rfl⟩ := List.mem_map.mp hs
    exact mkShare_length secret rnd t.toNat p
  have h2 : 2 ≤ (picks.map (fun k => mkShare secret rnd t.toNat k)).length := by
    rw [List.length_map]
    exact h2i
  have h255 : (picks.map (fun k => mkShare secret rnd t.toNat k)).length ≤ 255 := by
    rw [List.length_map]
    have hle := nodup_length_le picks n.toNat hnd hpb'
    omega
  rw [RecoverSecret_ok _ (secret.length + 1) h2 h255 hlenp (by omega) (by omega)]
  have hu : (picks.map (fun k => mkShare secret rnd t.toNat k)).map (fun s => s.getD 0 0) =
      picks.map idxByte := by
    rw [List.map_map]
    apply List.map_congr_left
    intro p hp
    exact mkShare_getD_zero secret rnd t.toNat p
  have hunodup : (picks.map idxByte).Nodup := by
    refine List.Nodup.map_on ?_ hnd
    intro p hp q hq hpq
    have hp' : p < 255 := by
      have := hpb' p hp
      omega
    have hq' : q < 255 := by
      have := hpb' q hq
      omega
    exact idxByte_inj hp' hq' hpq
  have hulen : (picks.map idxByte).length = picks.length := List.length_map _ _
  have hmain : ∀ j ∈ List.range (secret.length + 1 - 1),
      interpolate ((picks.map (fun k => mkShare secret rnd t.toNat k)).map
          (fun s => s.getD 0 0))
        ((picks.map (fun k => mkShare secret rnd t.toNat k)).map
          (fun s => s.getD (j + 1) 0)) = secret.getD j 0 := by
    intro j hj
    have hjlt : j < secret.length := by
      have := List.mem_range.mp hj
      omega
    have hv : (picks.map (fun k => mkShare secret rnd t.toNat k)).map
        (fun s => s.getD (j + 1) 0) =
        (picks.map idxByte).map (fun x => eval x (coeffs secret rnd t.toNat j)) := by
      rw [List.map_map, List.map_map]
      apply List.map_congr_left
      intro p hp
      show (mkShare secret rnd t.toNat p).getD (j + 1) 0 =
        eval (idxByte p) (coeffs secret rnd t.toNat j)
      exact mkShare_getD_succ secret rnd t.toNat p j hjlt
    rw [hu, hv, interpolate_eval_coeffs _ _ hunodup
      (by rw [coeffs_length, hulen]; exact hTm)]
    exact coeffs_getD_zero secret rnd j hT1
  rw [List.map_congr_left hmain]
  congr 1
  have hfin : (List.range (secret.length + 1 - 1)).map (fun j => secret.getD j 0) =
      (List.range secret.length).map (fun j => secret.getD j 0) := by
    congr 1
  rw [hfin]
  exact map_getD_range_self secret
/-- Witness randomness source for the C1 round-trip theorem. -/
def wrnd : Nat → Nat → GF := fun i k => g (7 * i + 3 * k + 1)

/-- Witness secret for the C1 round-trip theorem. -/
def wsecret : List GF := List.replicate 32 (g 7)

/-- Witness share set for the C1 round-trip theorem. -/
def wshares : List (List GF) := (List.range 3).map (mkShare wsecret wrnd 2)

theorem createShares_recoverSecret_roundtrip_witness :
    ([0, 2] : List Nat).Nodup ∧ (∀ p ∈ ([0, 2] : List Nat), p < wshares.length) ∧
      max (2 : Int) 2 ≤ ((([0, 2] : List Nat).length : Nat) : Int) ∧
      RecoverSecret (([0, 2] : List Nat).map (fun k => wshares.getD k [])) = .ok wsecret :=
  ⟨by decide, by decide, by decide,
    createShares_recoverSecret_roundtrip wsecret 3 2 wrnd wshares
      (CreateShares_ok wsecret 3 2 wrnd (by decide) (by decide) (by decide) (by decide)
        (by decide) (by decide))
      [0, 2] (by decide) (by decide) (by decide)⟩

/-- C2: for all bytes a, b: `add` is commutative and self-inverting
(`add a (add a b) = b`), `mul` is commutative, division undoes
multiplication by a nonzero byte, `mul a 0 = 0`, and `div a 0 = 0`. -/
theorem field_arithmetic_laws (a b : GF) :
    add a b = add b a ∧ add a (add a b) = b ∧ mul a b = mul b a ∧
      (b ≠ 0 → div (mul a b) b = a) ∧ mul a 0 = 0 ∧ div a 0 = 0 := by
  refine ⟨add_comm' a b, ?_, mul_comm' a b, ?_, mul_zero' a, div_zero' a⟩
  · rw [← add_assoc', add_self', zero_add']
  · intro hb
    rw [← mul_def, ← div_def]
    exact mul_div_cancel_right₀ a hb

theorem field_arithmetic_laws_witness : div (mul (g 5) (g 7)) (g 7) = g 5 :=
  (field_arithmetic_laws (g 5) (g 7)).2.2.2.1 (by decide)

/-- C3: the claim (matching the repository's own test
`testCaseCreateExpect(t, 1, 2, 2, nil)`) says every non-empty secret of
length at most 65534 passes the secret-length validation, but the code
rejects any secret shorter than 32 bytes with `ErrSecretTooShort`: a 1-byte
secret with valid sharesCount and threshold is refused. -/
theorem createShares_rejects_short_secret (rnd : Nat → Nat → GF) :
    CreateShares [g 97] 2 2 rnd = .err .ErrSecretTooShort := rfl

/-- C8 counterexample: the antilog table does not have at least
2*255+1 = 511 entries. -/
theorem expOp_not_511 : ¬ (2 * 255 + 1 ≤ expOp.length) := by decide

/-- C8 (amended): the antilog table has exactly 2*255 = 510 entries (the
exponentiation sequence written twice), and for nonzero bytes the index
`log a + log b` used by `mul` is at most 508 and the index
`255 + log a - log b` used by `div` is at most 509, both within the table's
bounds, so no modulo-255 reduction is ever needed. -/
theorem table_index_bounds :
    expOp.length = 2 * 255 ∧
      (∀ a b : GF, a ≠ 0 → b ≠ 0 →
        logv a + logv b ≤ 508 ∧ logv a + logv b < expOp.length ∧
          255 + logv a - logv b ≤ 509 ∧ 255 + logv a - logv b < expOp.length) := by
  refine ⟨by decide, ?_⟩
  intro a b _ _
  have h1 := logv_le a
  have h2 := logv_le b
  rw [expOp_length]
  omega

theorem table_index_bounds_witness :
    logv (g 2) + logv (g 3) ≤ 508 ∧ logv (g 2) + logv (g 3) < expOp.length ∧
      255 + logv (g 2) - logv (g 3) ≤ 509 ∧ 255 + logv (g 2) - logv (g 3) < expOp.length :=
  table_index_bounds.2 (g 2) (g 3) (by decide) (by decide)

theorem eval_singleton (x c : GF) : eval x [c] = c := by
  show add 0 (mul c 1) = c
  rw [← add_def, ← mul_def, mul_one, zero_add]

/-- C10: for every secret of length in [32, 65534] and sharesCount in
[2, 255], `CreateShares` with threshold 1 succeeds, and every returned share
is its index byte followed by the secret itself, byte for byte. -/
theorem createShares_threshold_one (secret : List GF) (n : Int) (rnd : Nat → Nat → GF)
    (hs1 : 32 ≤ secret.length) (hs2 : secret.length ≤ 65534)
    (hn1 : 2 ≤ n) (hn2 : n ≤ 255) :
    CreateShares secret n 1 rnd =
      .ok ((List.range n.toNat).map (fun j => idxByte j :: secret)) := by
  rw [CreateShares_ok secret n 1 rnd hs1 hs2 hn1 hn2 (by omega) (by omega)]
  congr 1
  apply List.map_congr_left
  intro j _
  show mkShare secret rnd 1 j = idxByte j :: secret
  unfold mkShare
  congr 1
  have hc : ∀ i ∈ List.range secret.length,
      eval (idxByte j) (coeffs secret rnd 1 i) = secret.getD i 0 := by
    intro i _
    have hco : coeffs secret rnd 1 i = [secret.getD i 0] := by
      unfold coeffs
      rw [List.ofFn_succ, List.set_cons_zero]
      congr 1
    rw [hco, eval_singleton]
  rw [List.map_congr_left hc]
  exact map_getD_range_self secret

theorem createShares_threshold_one_witness :
    32 ≤ (List.replicate 32 (g 9)).length ∧ (List.replicate 32 (g 9)).length ≤ 65534 ∧
      2 ≤ (2 : Int) ∧ (2 : Int) ≤ 255 ∧
      CreateShares (List.replicate 32 (g 9)) 2 1 (fun i k => g (i + k)) =
        .ok ((List.range (2 : Int).toNat).map (fun j => idxByte j :: List.replicate 32 (g 9))) :=
  ⟨by decide, by decide, by decide, by decide,
    createShares_threshold_one (List.replicate 32 (g 9)) 2 (fun i k => g (i + k))
      (by decide) (by decide) (by decide) (by decide)⟩
theorem hall_of_checks {shares : List (List GF)} (h2 : 2 ≤ shares.length)
    (hdrop : ∀ s ∈ shares.drop 1, s.length = (shares.getD 0 []).length) :
    ∀ s ∈ shares, s.length = (shares.getD 0 []).length := by
  rcases shares with _ | ⟨hd, tl⟩
  · intro s hs
    cases hs
  · intro s hs
    rcases List.mem_cons.mp hs with rfl | hmem
    · rfl
    · exact hdrop s hmem

/-- C4: `RecoverSecret` validates in order: fewer than 2 shares →
TooFewShares; more than 255 shares → TooManyShares; first-share length
outside [33, 65535] → InvalidShare; any other share of differing length →
InvalidShare; and every input passing all checks is recovered without
error. -/
theorem recoverSecret_validation (shares : List (List GF)) :
    (shares.length < 2 → RecoverSecret shares = .err .ErrTooFewShares) ∧
      (2 ≤ shares.length → 255 < shares.length →
        RecoverSecret shares = .err .ErrTooManyShares) ∧
      (2 ≤ shares.length → shares.length ≤ 255 →
        ((shares.getD 0 []).length < 33 ∨ 65535 < (shares.getD 0 []).length) →
        RecoverSecret shares = .err .ErrInvalidShare) ∧
      (2 ≤ shares.length → shares.length ≤ 255 →
        33 ≤ (shares.getD 0 []).length → (shares.getD 0 []).length ≤ 65535 →
        (∃ s ∈ shares.drop 1, s.length ≠ (shares.getD 0 []).length) →
        RecoverSecret shares = .err .ErrInvalidShare) ∧
      (2 ≤ shares.length → shares.length ≤ 255 →
        33 ≤ (shares.getD 0 []).length → (shares.getD 0 []).length ≤ 65535 →
        (∀ s ∈ shares.drop 1, s.length = (shares.getD 0 []).length) →
        ∃ sec, RecoverSecret shares = .ok sec) := by
  refine ⟨?_, ?_, ?_, ?_, ?_⟩
  · intro h
    unfold RecoverSecret
    rw [if_pos (by unfold MinShares; omega)]
  · intro h1 h2
    unfold RecoverSecret
    rw [if_neg (by unfold MinShares; omega), if_pos (by unfold MaxShares; omega)]
  · intro h1 h2 h3
    unfold RecoverSecret recoverChecked
    rw [if_neg (by unfold MinShares; omega), if_neg (by unfold MaxShares; omega)]
    rcases h3 with h3 | h3
    · rw [if_pos (by unfold MinShareBytes MinSecretBytes; omega)]
    · rw [if_neg (by unfold MinShareBytes MinSecretBytes; omega),
        if_pos (by unfold MaxShareBytes MaxSecretBytes; omega)]
  · intro h1 h2 h3 h4 h5
    obtain ⟨s, hs, hneq⟩ := h5
    unfold RecoverSecret recoverChecked
    rw [if_neg (by unfold MinShares; omega), if_neg (by unfold MaxShares; omega),
      if_neg (by unfold MinShareBytes MinSecretBytes; omega),
      if_neg (by unfold MaxShareBytes MaxSecretBytes; omega),
      if_pos (List.any_eq_true.mpr ⟨s, hs, by simpa using hneq⟩)]
  · intro h1 h2 h3 h4 h5
    exact ⟨_, RecoverSecret_ok shares (shares.getD 0 []).length h1 h2
      (hall_of_checks h1 h5) h3 h4⟩

/-- Two length-33 shares used to witness the validated branch of C4. -/
def c4shares : List (List GF) := [g 1 :: List.replicate 32 (g 5), g 2 :: List.replicate 32 (g 6)]

theorem recoverSecret_validation_witness :
    2 ≤ c4shares.length ∧ c4shares.length ≤ 255 ∧
      33 ≤ (c4shares.getD 0 []).length ∧ (c4shares.getD 0 []).length ≤ 65535 ∧
      (∀ s ∈ c4shares.drop 1, s.length = (c4shares.getD 0 []).length) ∧
      ∃ sec, RecoverSecret c4shares = .ok sec :=
  ⟨by decide, by decide, by decide, by decide, by decide,
    (recoverSecret_validation c4shares).2.2.2.2 (by decide) (by decide) (by decide)
      (by decide) (by decide)⟩

/-- The two 6-byte known-answer shares of the specification (index 1 with
payload B9 FA 07 E1 85, index 2 with payload F5 40 9B 45 11). -/
def katShares : List (List GF) :=
  [[g 1, g 185, g 250, g 7, g 225, g 133], [g 2, g 245, g 64, g 155, g 69, g 17]]

/-- C5 counterexample: `RecoverSecret` on exactly the two known-answer
shares does not return the secret 74 65 73 74 00 — the 6-byte shares are
rejected as invalid (their length is below the 33-byte minimum). -/
theorem kat_not_recovered :
    RecoverSecret katShares ≠ .ok [g 116, g 101, g 115, g 116, g 0] ∧
      RecoverSecret katShares = .err .ErrInvalidShare := by
  constructor
  · decide
  · rfl

/-- C5 (amended): `RecoverSecret` rejects the two 6-byte known-answer shares
with ErrInvalidShare, while the interpolation core applied to exactly those
shares' index and payload bytes does yield the secret 74 65 73 74 00, byte
for byte. -/
theorem kat_interpolation :
    RecoverSecret katShares = .err .ErrInvalidShare ∧
      (List.range 5).map (fun j => interpolate (katShares.map (fun s => s.getD 0 0))
        (katShares.map (fun s => s.getD (j + 1) 0))) =
        [g 116, g 101, g 115, g 116, g 0] := by
  constructor
  · rfl
  · decide

/-- C6 counterexample: with an otherwise-valid secret and share count, a
negative threshold makes `CreateShares` panic at `make([]byte, threshold)`,
and threshold zero makes it panic at the `a[0] = secret[i]` write; neither
returns a (result, error) pair. -/
theorem createShares_panics_nonpositive_threshold :
    CreateShares (List.replicate 32 (g 0)) 2 (-1) (fun _ _ => g 0) = .panicked ∧
      CreateShares (List.replicate 32 (g 0)) 2 0 (fun _ _ => g 0) = .panicked := by
  constructor
  · rfl
  · rfl

/-- C6 (amended): `CreateShares` returns a (result, error) outcome normally
for every input with threshold ≥ 1, and `RecoverSecret` never panics on any
input whatsoever; only a nonpositive threshold that survives validation
(threshold ≤ sharesCount) crashes `CreateShares`. -/
theorem no_panics_amended :
    (∀ (secret : List GF) (n t : Int) (rnd : Nat → Nat → GF), 1 ≤ t →
      CreateShares secret n t rnd ≠ .panicked) ∧
      (∀ shares : List (List GF), RecoverSecret shares ≠ .panicked) := by
  constructor
  · intro secret n t rnd ht
    unfold CreateShares
    split_ifs with h1 h2 h3 h4 h5 h6 h7 h8
    · simp
    · simp
    · simp
    · simp
    · simp
    · simp
    · omega
    · omega
    · simp
  · intro shares
    unfold RecoverSecret
    split_ifs with h1 h2
    · simp
    · simp
    · unfold recoverChecked
      split_ifs with h3 h4 h5
      · simp
      · simp
      · simp
      · rw [Bool.not_eq_true, List.any_eq_false] at h5
        have hdrop : ∀ s ∈ shares.drop 1, s.length = (shares.getD 0 []).length := by
          intro s hs
          have := h5 s hs
          simpa using this
        rw [recoverCore_eq shares (shares.getD 0 []).length
          (by unfold MinShareBytes MinSecretBytes at h3; omega)
          (hall_of_checks (by unfold MinShares at h1; omega) hdrop)]
        simp

/-- C7: a shape-valid share set in which two shares carry the same index
byte is still recovered with no reported error; the duplicate index drives a
division by zero in the Lagrange basis, which the field engine's
zero-divisor policy turns into a zero basis term instead of an error. -/
theorem recoverSecret_duplicate_index (shares : List (List GF)) (L : Nat)
    (h2 : 2 ≤ shares.length) (h255 : shares.length ≤ 255)
    (hall : ∀ s ∈ shares, s.length = L) (hmin : 33 ≤ L) (hmax : L ≤ 65535)
    (i j : Nat) (hi : i < shares.length) (hj : j < shares.length) (hij : i ≠ j)
    (hdup : (shares.getD i []).getD 0 0 = (shares.getD j []).getD 0 0) :
    (∃ sec, RecoverSecret shares = .ok sec) ∧
      poly i (shares.map (fun s => s.getD 0 0)) = 0 := by
  refine ⟨⟨_, RecoverSecret_ok shares L h2 h255 hall hmin hmax⟩, ?_⟩
  have hmap : ∀ p, p < shares.length →
      (shares.map (fun s => s.getD 0 0)).getD p 0 = (shares.getD p []).getD 0 0 := by
    intro p hp
    have hp2 : p < (shares.map (fun s => s.getD 0 0)).length := by
      rw [List.length_map]
      exact hp
    rw [List.getD_eq_getElem (l := shares.map (fun s => s.getD 0 0)) (d := 0) hp2,
      List.getD_eq_getElem (l := shares) (d := []) hp]
    simp
  rw [poly_eq_prod]
  refine Finset.prod_eq_zero (i := j) ?_ ?_
  · rw [Finset.mem_erase]
    refine ⟨fun hc => hij hc.symm, Finset.mem_range.mpr ?_⟩
    rw [List.length_map]
    exact hj
  · rw [hmap j hj, hmap i hi, ← hdup, gf_char_two, div_zero]

/-- Two shares with the same index byte, witnessing C7. -/
def c7shares : List (List GF) := [g 1 :: List.replicate 32 (g 5), g 1 :: List.replicate 32 (g 9)]

theorem recoverSecret_duplicate_index_witness :
    (0 : Nat) ≠ 1 ∧ (c7shares.getD 0 []).getD 0 0 = (c7shares.getD 1 []).getD 0 0 ∧
      ((∃ sec, RecoverSecret c7shares = .ok sec) ∧
        poly 0 (c7shares.map (fun s => s.getD 0 0)) = 0) :=
  ⟨by decide, by decide,
    recoverSecret_duplicate_index c7shares 33 (by decide) (by decide) (by decide)
      (by decide) (by decide) 0 1 (by decide) (by decide) (by decide) (by decide)⟩
/-- The mutable state of a `RecoverSecret` call: the caller's share array and
the letter-for-letter scratch buffers `u`, `v` and the output `secret` of the
Go source. Writes go through `List.set`, mirroring Go element assignment. -/
structure RecSt where
  shares : List (List GF)
  u : List GF
  v : List GF
  sec : List GF

/-- `erase` from tss.go: overwrite every byte of the buffer with 0xff. -/
def erase (a : List GF) : List GF := a.map (fun _ => g 255)

/-- The `u[i] = shares[i][0]` loop of RecoverSecret, writing through the
state. -/
def fillU (st : RecSt) : RecSt :=
  (List.range st.shares.length).foldl
    (fun st i => { st with u := st.u.set i ((st.shares.getD i []).getD 0 0) }) st

/-- The recovery double loop of tss.go: for each payload offset `j`, fill
`v[i] = shares[i][j+1]` and then write `secret[j] = interpolate(u, v)`. -/
def recLoops (shareSize : Nat) (st : RecSt) : RecSt :=
  (List.range (shareSize - 1)).foldl (fun st j =>
    let st2 := (List.range st.shares.length).foldl
      (fun st i => { st with v := st.v.set i ((st.shares.getD i []).getD (j + 1) 0) }) st
    { st2 with sec := st2.sec.set j (interpolate st2.u st2.v) }) st

/-- `RecoverSecret` as a state-passing computation over the caller's share
array. The returned state holds the share array as left behind by the call
together with the scratch buffers (`u` and `v` erased on exit by the
deferred `erase`, as in the source). -/
def RecoverSecretSt (shares : List (List GF)) : GoResult (List GF) × RecSt :=
  if shares.length < MinShares then (.err .ErrTooFewShares, ⟨shares, [], [], []⟩)
  else if shares.length > MaxShares then (.err .ErrTooManyShares, ⟨shares, [], [], []⟩)
  else if (shares.getD 0 []).length < MinShareBytes then
    (.err .ErrInvalidShare, ⟨shares, [], [], []⟩)
  else if (shares.getD 0 []).length > MaxShareBytes then
    (.err .ErrInvalidShare, ⟨shares, [], [], []⟩)
  else if (shares.drop 1).any (fun s => s.length != (shares.getD 0 []).length) then
    (.err .ErrInvalidShare, ⟨shares, [], [], []⟩)
  else
    let st1 : RecSt := ⟨shares, List.replicate shares.length 0,
      List.replicate shares.length 0, List.replicate ((shares.getD 0 []).length - 1) 0⟩
    let st2 := recLoops (shares.getD 0 []).length (fillU st1)
    (.ok st2.sec, { st2 with u := erase st2.u, v := erase st2.v })

theorem foldl_shares_const (f : RecSt → Nat → RecSt)
    (hf : ∀ st i, (f st i).shares = st.shares) :
    ∀ (l : List Nat) (st : RecSt), (l.foldl f st).shares = st.shares := by
  intro l
  induction l with
  | nil => intro st; rfl
  | cons a l ih =>
    intro st
    rw [List.foldl_cons, ih, hf]

theorem fillU_shares (st : RecSt) : (fillU st).shares = st.shares := by
  unfold fillU
  exact foldl_shares_const
    (fun st i => { st with u := st.u.set i ((st.shares.getD i []).getD 0 0) })
    (fun _ _ => rfl) _ st

theorem recLoops_shares (L : Nat) (st : RecSt) : (recLoops L st).shares = st.shares := by
  unfold recLoops
  refine foldl_shares_const (fun st j =>
      let st2 := (List.range st.shares.length).foldl
        (fun st i => { st with v := st.v.set i ((st.shares.getD i []).getD (j + 1) 0) }) st
      { st2 with sec := st2.sec.set j (interpolate st2.u st2.v) })
    (fun st j => ?_) _ st
  show ((List.range st.shares.length).foldl
    (fun st i => { st with v := st.v.set i ((st.shares.getD i []).getD (j + 1) 0) })
    st).shares = st.shares
  exact foldl_shares_const
    (fun st i => { st with v := st.v.set i ((st.shares.getD i []).getD (j + 1) 0) })
    (fun _ _ => rfl) _ st
theorem foldl_set_length (h : Nat → GF) (l : List Nat) (w : List GF) :
    (l.foldl (fun w i => w.set i (h i)) w).length = w.length := by
  induction l generalizing w with
  | nil => rfl
  | cons a l ih =>
    rw [List.foldl_cons, ih, List.length_set]

theorem foldl_set_getD (h : Nat → GF) (l : List Nat) :
    ∀ (w : List GF) (p : Nat), p < w.length →
      (l.foldl (fun w i => w.set i (h i)) w).getD p 0 =
        if p ∈ l then h p else w.getD p 0 := by
  induction l with
  | nil =>
    intro w p hp
    simp
  | cons a l ih =>
    intro w p hp
    rw [List.foldl_cons, ih (w.set a (h a)) p (by rw [List.length_set]; exact hp)]
    by_cases hpl : p ∈ l
    · rw [if_pos hpl, if_pos (List.mem_cons.mpr (Or.inr hpl))]
    · rw [if_neg hpl]
      by_cases hpa : p = a
      · subst hpa
        rw [if_pos (List.mem_cons.mpr (Or.inl rfl)),
          List.getD_eq_getElem (l := w.set p (h p)) (d := 0) (by rw [List.length_set]; exact hp),
          List.getElem_set_self]
      · rw [if_neg (by simp [hpa, hpl]),
          List.getD_eq_getElem (l := w.set a (h a)) (d := 0) (by rw [List.length_set]; exact hp),
          List.getElem_set_ne (by omega),
          List.getD_eq_getElem (l := w) (d := 0) hp]

theorem foldl_set_range_map (h : Nat → GF) (n : Nat) (w : List GF) (hw : w.length = n) :
    (List.range n).foldl (fun w i => w.set i (h i)) w = (List.range n).map h := by
  apply List.ext_getElem
  · rw [foldl_set_length, hw, List.length_map, List.length_range]
  · intro p h1 h2
    have hp : p < n := by rwa [List.length_map, List.length_range] at h2
    have hgd := foldl_set_getD h (List.range n) w p (by omega)
    rw [if_pos (List.mem_range.mpr hp)] at hgd
    rw [List.getD_eq_getElem (l := (List.range n).foldl (fun w i => w.set i (h i)) w)
      (d := 0) h1] at hgd
    rw [hgd]
    simp

theorem range_map_getD (shares : List (List GF)) (f : List GF → GF) :
    (List.range shares.length).map (fun i => f (shares.getD i [])) = shares.map f := by
  apply List.ext_getElem
  · simp
  · intro p h1 h2
    have hp : p < shares.length := by simpa using h2
    simp only [List.getElem_map, List.getElem_range]
    rw [List.getD_eq_getElem (l := shares) (d := ([] : List GF)) hp]

theorem fillU_loop_spec :
    ∀ (l : List Nat) (st : RecSt),
      l.foldl (fun st i => { st with u := st.u.set i ((st.shares.getD i []).getD 0 0) }) st =
        { st with u := l.foldl (fun w i => w.set i ((st.shares.getD i []).getD 0 0)) st.u } := by
  intro l
  induction l with
  | nil =>
    intro st
    rfl
  | cons a l ih =>
    intro st
    rw [List.foldl_cons, List.foldl_cons, ih]

theorem fillV_loop_spec (j : Nat) :
    ∀ (l : List Nat) (st : RecSt),
      l.foldl (fun st i =>
          { st with v := st.v.set i ((st.shares.getD i []).getD (j + 1) 0) }) st =
        { st with v := (l.foldl (fun w i => w.set i ((st.shares.getD i []).getD (j + 1) 0))
            st.v) } := by
  intro l
  induction l with
  | nil =>
    intro st
    rfl
  | cons a l ih =>
    intro st
    rw [List.foldl_cons, List.foldl_cons, ih]

theorem recLoops_loop_spec (shares0 : List (List GF)) :
    ∀ (js : List Nat) (st : RecSt), st.shares = shares0 → st.v.length = shares0.length →
      (js.foldl (fun st j =>
        let st2 := (List.range st.shares.length).foldl
          (fun st i => { st with v := st.v.set i ((st.shares.getD i []).getD (j + 1) 0) }) st
        { st2 with sec := st2.sec.set j (interpolate st2.u st2.v) }) st).sec =
      js.foldl (fun sec j => sec.set j
        (interpolate st.u (shares0.map (fun s => s.getD (j + 1) 0)))) st.sec := by
  intro js
  induction js with
  | nil =>
    intro st h1 h2
    rfl
  | cons j js ih =>
    intro st h1 h2
    rw [List.foldl_cons, List.foldl_cons]
    have hv : (List.range st.shares.length).foldl
        (fun w i => w.set i ((st.shares.getD i []).getD (j + 1) 0)) st.v =
        shares0.map (fun s => s.getD (j + 1) 0) := by
      rw [foldl_set_range_map _ st.shares.length st.v (by rw [h1, h2]),
        range_map_getD st.shares (fun s => s.getD (j + 1) 0), h1]
    have h3 := fillV_loop_spec j (List.range st.shares.length) st
    rw [hv] at h3
    rw [h3]
    exact ih ⟨st.shares, st.u, shares0.map (fun s => s.getD (j + 1) 0),
      st.sec.set j (interpolate st.u (shares0.map (fun s => s.getD (j + 1) 0)))⟩ h1 (by simp)

/-- The state-passing recovery computes the same outcome as the functional
`RecoverSecret`: same error, or the same recovered byte sequence. -/
theorem recoverSecretSt_result (shares : List (List GF)) :
    (RecoverSecretSt shares).1 = RecoverSecret shares := by
  unfold RecoverSecretSt RecoverSecret recoverChecked
  split_ifs with h1 h2 h3 h4 h5
  · rfl
  · rfl
  · rfl
  · rfl
  · rfl
  · rw [Bool.not_eq_true, List.any_eq_false] at h5
    have hdrop : ∀ s ∈ shares.drop 1, s.length = (shares.getD 0 []).length := by
      intro s hs
      have := h5 s hs
      simpa using this
    rw [recoverCore_eq shares (shares.getD 0 []).length
      (by unfold MinShareBytes MinSecretBytes at h3; omega)
      (hall_of_checks (by unfold MinShares at h1; omega) hdrop)]
    have hfill : fillU ⟨shares, List.replicate shares.length 0,
        List.replicate shares.length 0,
        List.replicate ((shares.getD 0 []).length - 1) 0⟩ =
        ⟨shares, shares.map (fun s => s.getD 0 0), List.replicate shares.length 0,
          List.replicate ((shares.getD 0 []).length - 1) 0⟩ := by
      unfold fillU
      rw [fillU_loop_spec]
      simp only []
      rw [foldl_set_range_map (fun i => (shares.getD i []).getD 0 0) shares.length _
        (List.length_replicate _ _), range_map_getD shares (fun s => s.getD 0 0)]
    simp only []
    rw [hfill]
    unfold recLoops
    rw [recLoops_loop_spec shares (List.range ((shares.getD 0 []).length - 1))
      ⟨shares, shares.map (fun s => s.getD 0 0), List.replicate shares.length 0,
        List.replicate ((shares.getD 0 []).length - 1) 0⟩ rfl (by simp)]
    rw [foldl_set_range_map
      (fun j => interpolate (shares.map (fun s => s.getD 0 0))
        (shares.map (fun s => s.getD (j + 1) 0))) ((shares.getD 0 []).length - 1) _
      (List.length_replicate _ _)]

/-- C9: recovery leaves every byte of every input share unchanged (the state
left behind holds the caller's share array intact), and two successive
recoveries of the same share set return identical outcomes. -/
theorem recoverSecretSt_frame (shares : List (List GF)) :
    (RecoverSecretSt shares).2.shares = shares ∧
      RecoverSecretSt shares = RecoverSecretSt shares := by
  refine ⟨?_, rfl⟩
  unfold RecoverSecretSt
  split_ifs with h1 h2 h3 h4 h5
  · rfl
  · rfl
  · rfl
  · rfl
  · rfl
  · show (recLoops (shares.getD 0 []).length (fillU
      ⟨shares, List.replicate shares.length 0, List.replicate shares.length 0,
        List.replicate ((shares.getD 0 []).length - 1) 0⟩)).shares = shares
    rw [recLoops_shares, fillU_shares]
theorem no_panics_amended_witness :
    CreateShares (List.replicate 32 (g 1)) 2 1 (fun _ _ => g 0) ≠ .panicked ∧
      RecoverSecret [] ≠ .panicked :=
  ⟨no_panics_amended.1 (List.replicate 32 (g 1)) 2 1 (fun _ _ => g 0) (by decide),
    no_panics_amended.2 []⟩

end Tss
